import Mathlib

/-!
Verification of the table reconciliation and partition core of
Custom_Merge_Excel_for_web against its natural-language specification.

The client logic lives in src/app/page.tsx (functions combineKeys,
sortByKeyColumns, handleCompare, handleSplit, sortedMergedResult,
sortedSplitPreviewData, removeCombinedKey).  The numeric engine
(compare_files / split_file) is a Rust WASM crate that is not part of the
checked-in sources; where a claim depends on it, the relevant behaviour is
modelled from the specification and marked as such.

Conventions of the shallow embedding:
* JavaScript strings become Lean String, arrays become List.
* JavaScript numbers become ℚ; parseFloat becomes jsParseFloat, returning
  none for NaN.  JavaScript ±Infinity results of parseFloat are not
  modelled (they are mapped to none); no claim depends on them.
* localeCompare is modelled as code-point lexicographic comparison
  returning -1/0/1; the claims under study depend only on it being a
  string comparison, not on a particular locale table.
* A JS Map built by repeated set and read by get is modelled by lastAssoc
  (the last write to a key wins, a missing key reads as none).
-/

namespace MergeExcel

/-- CompareOptions from src/lib/wasm-types.ts: trim and case-insensitive
normalization flags for composite keys. -/
structure CompareOptions where
  trim : Bool
  case_insensitive : Bool
deriving DecidableEq, Repr

/-- TableData from src/lib/wasm-types.ts: a header list and a list of rows
of cell strings. -/
structure Table where
  headers : List String
  rows : List (List String)
deriving DecidableEq, Repr

/-- JavaScript indexing with the `|| ""` default: `row[idx] || ""` yields
the cell when the (possibly negative or out-of-range) index is valid and
the cell is truthy, and the empty string otherwise.  An empty-string cell
is falsy in JS, but `"" || ""` is again `""`, so the embedding coincides. -/
def cellAt (row : List String) (i : Int) : String :=
  if 0 ≤ i then row.getD i.toNat "" else ""

/-- JavaScript `Array.prototype.join("|")`. -/
def joinBar : List String → String
  | [] => ""
  | [v] => v
  | v :: rest => v ++ "|" ++ joinBar rest

/-- JavaScript `Array.prototype.indexOf`: index of the first occurrence, -1
when absent. -/
def jsIndexOf (l : List String) (x : String) : Int :=
  match l.indexOf? x with
  | some n => (n : Int)
  | none => -1

/-- combineKeys from src/app/page.tsx lines 600-610: extract the cells at
the key indices (missing index reads as empty), join with "|", then trim
the whole string if options.trim, then lowercase the whole string if
options.case_insensitive. -/
def combineKeys (row : List String) (keyIndices : List Int)
    (options : CompareOptions) : String :=
  let values := keyIndices.map (fun idx => cellAt row idx)
  let combined := joinBar values
  let combined := if options.trim then combined.trim else combined
  let combined := if options.case_insensitive then combined.toLower else combined
  combined

/-- Whole-string trim step exactly as the spec words it (applied to the
joined string, never per segment). -/
def specTrimStep (b : Bool) (s : String) : String :=
  if b then s.trim else s

/-- Whole-string casefold step exactly as the spec words it. -/
def specFoldStep (b : Bool) (s : String) : String :=
  if b then s.toLower else s

/-- KeyBuilder contract transcribed from spec.md §4.1: values at the given
indices (empty string when out of range) joined with "|", then whole-string
trim when options.trim, then whole-string lowercase when
options.case_insensitive. -/
def buildKeySpec (row : List String) (keyIndices : List Int)
    (options : CompareOptions) : String :=
  specFoldStep options.case_insensitive
    (specTrimStep options.trim
      (joinBar (keyIndices.map (fun idx => cellAt row idx))))

/-- Numeric value of a digit list, most significant first. -/
def natOfDigits (ds : List Char) : Nat :=
  ds.foldl (fun n c => 10 * n + (c.toNat - 48)) 0

/-- Exponent part of a JavaScript float literal: optional sign then digits;
a malformed exponent contributes 0 (parseFloat keeps the longest valid
numeric prefix, so "1e+" parses as 1). -/
def jsParseExp (cs : List Char) : Int :=
  let p := match cs with
    | '-' :: rest => ((-1 : Int), rest)
    | '+' :: rest => ((1 : Int), rest)
    | _ => ((1 : Int), cs)
  let ds := p.2.takeWhile Char.isDigit
  if ds.isEmpty then 0 else p.1 * (natOfDigits ds : Int)

/-- Scale a rational by a signed power of ten. -/
def scalePow10 (q : ℚ) (e : Int) : ℚ :=
  if 0 ≤ e then q * (10 : ℚ) ^ e.toNat else q / (10 : ℚ) ^ (-e).toNat

/-- JavaScript parseFloat modelled over ℚ: skip leading whitespace, read an
optional sign, decimal digits with at most one point, and an optional
well-formed exponent; trailing garbage is ignored; none stands for NaN
(no digits at all).  The ±Infinity results of the real parseFloat are not
modelled; no claim under study exercises them. -/
def jsParseFloatChars (cs : List Char) : Option ℚ :=
  let cs0 := cs.dropWhile Char.isWhitespace
  let sp := match cs0 with
    | '-' :: rest => ((-1 : ℚ), rest)
    | '+' :: rest => ((1 : ℚ), rest)
    | _ => ((1 : ℚ), cs0)
  let intDigits := sp.2.takeWhile Char.isDigit
  let cs1 := sp.2.dropWhile Char.isDigit
  let fp := match cs1 with
    | '.' :: rest => (rest.takeWhile Char.isDigit, rest.dropWhile Char.isDigit)
    | _ => (([] : List Char), cs1)
  if intDigits.isEmpty && fp.1.isEmpty then none
  else
    let mant : ℚ :=
      (natOfDigits intDigits : ℚ) + (natOfDigits fp.1 : ℚ) / (10 : ℚ) ^ fp.1.length
    let e : Int := match fp.2 with
      | 'e' :: rest => jsParseExp rest
      | 'E' :: rest => jsParseExp rest
      | _ => 0
    some (scalePow10 (sp.1 * mant) e)

/-- JavaScript parseFloat on a string. -/
def jsParseFloat (s : String) : Option ℚ :=
  jsParseFloatChars s.data

/-- Model of String.prototype.localeCompare: a locale-aware three-way
string comparison, embedded as code-point lexicographic order returning
-1, 0 or 1. -/
def localeCompareInt (a b : String) : Int :=
  match compare a b with
  | .lt => -1
  | .eq => 0
  | .gt => 1

/-- Sort direction of a user sort entry. -/
inductive Direction where
  | asc
  | desc
deriving DecidableEq, Repr

/-- One entry of the user-requested output sort ({ column, direction }). -/
structure SortCol where
  column : String
  direction : Direction
deriving DecidableEq, Repr

/-- Cell comparison of the user-requested output sort, from
sortedMergedResult (src/app/page.tsx lines 419-430) and the identical
sortedSplitPreviewData (lines 472-482): aVal and bVal are computed as
`parseFloat(cell) || 0`, which maps NaN (and only NaN or 0) to 0, so the
subsequent `isNaN(aVal) || isNaN(bVal)` test is unreachable and the
localeCompare branch guarded by it is dead code; the embedding therefore
reduces to the numeric comparison with unparsable cells coerced to 0. -/
def userValCompare (d : Direction) (a b : String) : ℚ :=
  let aVal := (jsParseFloat a).getD 0
  let bVal := (jsParseFloat b).getD 0
  match d with
  | .asc => aVal - bVal
  | .desc => bVal - aVal

/-- Row comparator of the user-requested output sort (src/app/page.tsx
lines 414-433): walk the active sort columns, skip a column absent from
the headers, and return the first nonzero cell comparison. -/
def userRowCompare (headers : List String) (cols : List SortCol)
    (a b : List String) : ℚ :=
  match cols with
  | [] => 0
  | c :: rest =>
    match headers.indexOf? c.column with
    | none => userRowCompare headers rest a b
    | some i =>
      let r := userValCompare c.direction (a.getD i "") (b.getD i "")
      if r = 0 then userRowCompare headers rest a b else r

/-- Cell comparison of the key-column pre-sort, from sortByKeyColumns
(src/app/page.tsx lines 617-644): each value is trimmed and lowercased
according to the options, then both are parsed; if both parse the
difference of the numbers is used, otherwise a locale string comparison. -/
def preKeyCompare (options : CompareOptions) (a b : String) : ℚ :=
  let aVal := if options.trim then a.trim else a
  let aVal := if options.case_insensitive then aVal.toLower else aVal
  let bVal := if options.trim then b.trim else b
  let bVal := if options.case_insensitive then bVal.toLower else bVal
  match jsParseFloat aVal, jsParseFloat bVal with
  | some x, some y => x - y
  | _, _ => (localeCompareInt aVal bVal : ℚ)

/-- Comparison policy for the user-requested output sort transcribed from
the spec wording (spec.md §4.4): parse both cells; when both parse, compare
numerically; when either fails, compare as (locale) strings; desc negates. -/
def claimSortValCompare (d : Direction) (a b : String) : ℚ :=
  match jsParseFloat a, jsParseFloat b with
  | some x, some y =>
    match d with
    | .asc => x - y
    | .desc => y - x
  | _, _ =>
    match d with
    | .asc => (localeCompareInt a b : ℚ)
    | .desc => (localeCompareInt b a : ℚ)

/-- Stable sort used to model JavaScript Array.prototype.sort (stable per
the ECMAScript spec): Mathlib insertion sort under the non-strict
comparator relation. -/
def jsSortRows (headers : List String) (cols : List SortCol)
    (rows : List (List String)) : List (List String) :=
  List.insertionSort (fun a b => userRowCompare headers cols a b ≤ 0) rows

/-- Numeric coercion of one cell of a row exactly as the user sort computes
it: `parseFloat(row[i]) || 0`. -/
def cellNumAt (row : List String) (i : Nat) : ℚ :=
  (jsParseFloat (row.getD i "")).getD 0

/-- JS Map populated by `rowMap.set(header, row[idx] || "")` over the merged
headers (src/app/page.tsx lines 760-762): association list in insertion
order; a later write to the same key wins on lookup. -/
def rowPairs (headers : List String) (row : List String) :
    List (String × String) :=
  headers.enum.map (fun p => (p.2, row.getD p.1 ""))

/-- Lookup in the JS-Map model: the last binding of the key, none when the
key was never set (Map.get returning undefined). -/
def lastAssoc (ps : List (String × String)) (x : String) : Option String :=
  ps.foldl (fun acc p => if p.1 == x then some p.2 else acc) none

/-- JavaScript `v || d` for v a string-or-undefined: d when v is undefined
(none) or the empty string (falsy), v otherwise. -/
def jsOrStr (o : Option String) (d : String) : String :=
  match o with
  | some s => if s = "" then d else s
  | none => d

/-- Key-column detection of the header unification pass (src/app/page.tsx
lines 736-739): the first selected key k with header = L__k or header =
R__k.  The source tests the pattern with some and then recovers k by
stripping the regex ^(L__|R__); since the match forces header = L__k or
R__k for that k, find? returns exactly the stripped name. -/
def keyMatch (compareKeys : List String) (h : String) : Option String :=
  compareKeys.find? (fun k => h == "L__" ++ k || h == "R__" ++ k)

/-- Worker of the header unification loop (src/app/page.tsx lines 733-752),
with the running processedKeys set made explicit: a header matching a key
pattern is folded to the bare key name, emitted only on first encounter;
all other headers are kept verbatim in order. -/
def unifyHeadersGo (compareKeys : List String) (processed : List String) :
    List String → List String
  | [] => []
  | h :: rest =>
    match keyMatch compareKeys h with
    | some k =>
      if processed.contains k then unifyHeadersGo compareKeys processed rest
      else k :: unifyHeadersGo compareKeys (k :: processed) rest
    | none => h :: unifyHeadersGo compareKeys processed rest

/-- Unified header list of handleCompare. -/
def unifyHeaders (compareKeys mergedHeaders : List String) : List String :=
  unifyHeadersGo compareKeys [] mergedHeaders

/-- Final processedKeys set of the header pass, used by the row projection
(src/app/page.tsx line 767). -/
def processedKeysGo (compareKeys : List String) (processed : List String) :
    List String → List String
  | [] => processed
  | h :: rest =>
    match keyMatch compareKeys h with
    | some k =>
      if processed.contains k then processedKeysGo compareKeys processed rest
      else processedKeysGo compareKeys (k :: processed) rest
    | none => processedKeysGo compareKeys processed rest

/-- Set of key names folded during header unification. -/
def processedKeys (compareKeys mergedHeaders : List String) : List String :=
  processedKeysGo compareKeys [] mergedHeaders

/-- Row projection of handleCompare (src/app/page.tsx lines 754-776): for a
folded key header take `rowMap.get(L__k) || rowMap.get(R__k) || ""`, for
any other header `rowMap.get(header) || ""`. -/
def unifyRow (compareKeys mergedHeaders row : List String) : List String :=
  let pm := rowPairs mergedHeaders row
  (unifyHeaders compareKeys mergedHeaders).map (fun h =>
    if (processedKeys compareKeys mergedHeaders).contains h then
      jsOrStr (lastAssoc pm ("L__" ++ h)) (jsOrStr (lastAssoc pm ("R__" ++ h)) "")
    else
      jsOrStr (lastAssoc pm h) "")

/-- Row projection transcribed from the claim wording for C4: the value of
column L__k when that renamed column is present among the merged headers,
else the value of R__k when present, else the empty string. -/
def claimUnifyRow (compareKeys mergedHeaders row : List String) : List String :=
  let pm := rowPairs mergedHeaders row
  (unifyHeaders compareKeys mergedHeaders).map (fun h =>
    if (processedKeys compareKeys mergedHeaders).contains h then
      if mergedHeaders.contains ("L__" ++ h) then
        (lastAssoc pm ("L__" ++ h)).getD ""
      else if mergedHeaders.contains ("R__" ++ h) then
        (lastAssoc pm ("R__" ++ h)).getD ""
      else ""
    else
      jsOrStr (lastAssoc pm h) "")

/-- Row projection as amended for C4: for a folded key header the first
non-empty value among the L__k and R__k cells (a missing column reads as
empty), else the empty string. -/
def amendUnifyRow (compareKeys mergedHeaders row : List String) : List String :=
  let pm := rowPairs mergedHeaders row
  (unifyHeaders compareKeys mergedHeaders).map (fun h =>
    if (processedKeys compareKeys mergedHeaders).contains h then
      let vL := (lastAssoc pm ("L__" ++ h)).getD ""
      let vR := (lastAssoc pm ("R__" ++ h)).getD ""
      if vL ≠ "" then vL else if vR ≠ "" then vR else ""
    else
      jsOrStr (lastAssoc pm h) "")

/-- One user-requested difference column ({ left, right, label } entries of
compareColumns in src/app/page.tsx). -/
structure DiffCol where
  left : String
  right : String
  label : String
deriving DecidableEq, Repr

/-- Truthiness test guarding a difference column (src/app/page.tsx line
793): all three fields non-empty. -/
def validDiffCol (c : DiffCol) : Bool :=
  c.left != "" && c.right != "" && c.label != ""

/-- parseNumber policy of the diff computation (src/app/page.tsx lines
804-805): `parseFloat(rowMap.get(h) || "0") || 0`; an absent column, an
empty cell and unparsable text all come out as 0, and nothing raises. -/
def parseNumber (o : Option String) : ℚ :=
  (jsParseFloat (jsOrStr o "0")).getD 0

/-- Value of one difference column on one pre-unification row:
parseNumber(row[L__left]) - parseNumber(row[R__right]), read from the row
map built over the merged (pre-fold) headers. -/
def diffNum (mergedHeaders orig : List String) (c : DiffCol) : ℚ :=
  let pm := rowPairs mergedHeaders orig
  parseNumber (lastAssoc pm ("L__" ++ c.left)) -
    parseNumber (lastAssoc pm ("R__" ++ c.right))

/-- Rendering of the computed difference back into a cell
(`diff.toString()`); the exact JS float formatting is abstracted into the
ℚ printer, which no claim inspects. -/
def ratToString (q : ℚ) : String :=
  toString q

/-- One step of the compareColumns.forEach loop (src/app/page.tsx lines
792-810): a valid spec appends its label to the headers and, to each row,
the difference computed from the matching pre-unification row. -/
def diffStep (mergedHeaders : List String) (mergedRows : List (List String))
    (acc : List String × List (List String)) (c : DiffCol) :
    List String × List (List String) :=
  if validDiffCol c then
    (acc.1 ++ [c.label],
     (acc.2.zip mergedRows).map
       (fun p => p.1 ++ [ratToString (diffNum mergedHeaders p.2 c)]))
  else acc

/-- Merged output table of handleCompare (src/app/page.tsx lines 728-816):
header unification and row projection over the concatenated bucket rows,
then the difference columns appended in declaration order. -/
def mergedOutput (compareKeys : List String) (specs : List DiffCol)
    (mergedHeaders : List String) (mergedRows : List (List String)) : Table :=
  let uh := unifyHeaders compareKeys mergedHeaders
  let ur := mergedRows.map (fun r => unifyRow compareKeys mergedHeaders r)
  let fin := specs.foldl (diffStep mergedHeaders mergedRows) (uh, ur)
  ⟨fin.1, fin.2⟩

/-- Predicate picking out an L__/R__-renamed column name (startsWith,
phrased over the character lists so that it evaluates by decide). -/
def prefixedHeader (h : String) : Bool :=
  "L__".data.isPrefixOf h.data || "R__".data.isPrefixOf h.data

/-- Removal of the column with the given name (first occurrence), as both
removeCombinedKey (src/app/page.tsx lines 704-712) and the split-result
strip (lines 863-871) perform it: the lookup headers locate the index,
then that index is filtered out of headers and of every row.  JS
filter((_, i) => i !== idx) equals eraseIdx at that index. -/
def stripCombinedKey (lookupHeaders : List String) (name : String)
    (t : Table) : Table :=
  match lookupHeaders.indexOf? name with
  | none => t
  | some i => ⟨t.headers.eraseIdx i, t.rows.map (fun r => r.eraseIdx i)⟩

/-- removeCombinedKey from src/app/page.tsx lines 704-712, applied to the
four compare buckets at lines 714-717: the lookup headers are the bucket's
own header list (each bucket recomputes the index of the joined key
name). -/
def removeCombinedKey (name : String) (t : Table) : Table :=
  stripCombinedKey t.headers name t

/-- Key-column augmentation of the compare path (src/app/page.tsx lines
674-690): append a column named after the joined key names holding the
composite key of each row, built under the supplied options. -/
def compareAugment (d : Table) (keys : List String)
    (options : CompareOptions) : Table :=
  ⟨d.headers ++ [joinBar keys],
   d.rows.map (fun row =>
     row ++ [combineKeys row (keys.map (fun k => jsIndexOf d.headers k)) options])⟩

/-- Key-column augmentation of the split path (src/app/page.tsx lines
843-852): same construction with the options hard-coded to
{ trim: true, case_insensitive: false }. -/
def splitAugment (d : Table) (keys : List String) : Table :=
  ⟨d.headers ++ [joinBar keys],
   d.rows.map (fun row =>
     row ++ [combineKeys row (keys.map (fun k => jsIndexOf d.headers k))
       ⟨true, false⟩])⟩

/-- Modelled from the spec: the matched-bucket header layout of
compare_files, the ReconciliationEngine of the excel-merge-wasm Rust crate
that is not under src/ (spec.md §4.2 step 6): the key column once, then
every non-key left column renamed L__name, then every non-key right column
renamed R__name; the key column is located by name, first occurrence. -/
def modelMatchedHeaders (name : String)
    (leftHeaders rightHeaders : List String) : List String :=
  let nonKeyLeft :=
    match leftHeaders.indexOf? name with
    | some i => leftHeaders.eraseIdx i
    | none => leftHeaders
  let nonKeyRight :=
    match rightHeaders.indexOf? name with
    | some i => rightHeaders.eraseIdx i
    | none => rightHeaders
  name :: (nonKeyLeft.map (fun c => "L__" ++ c) ++
    nonKeyRight.map (fun c => "R__" ++ c))

/-- Header list reaching the unification pass for one compare invocation:
augment both inputs with the joined key column, take the modelled matched
headers, and strip the combined key as handleCompare does (src/app/page.tsx
lines 704-720). -/
def modelCompareMergedHeaders (leftH rightH keys : List String) : List String :=
  let name := joinBar keys
  let lk := leftH ++ [name]
  let rk := rightH ++ [name]
  (stripCombinedKey (modelMatchedHeaders name lk rk) name
    ⟨modelMatchedHeaders name lk rk, []⟩).headers

/-- Modelled from the spec: the left_only, right_only and duplicates
buckets of compare_files (ReconciliationEngine of the excel-merge-wasm
Rust crate, not under src/) keep the input table's columns unrenamed
(spec.md §3: the L__/R__ renaming applies to matched rows only), so a side
bucket drawn from the augmented input carries that input's headers — the
original columns followed by the appended helper column — over whatever
rows the classification routed to it. -/
def modelSideBucket (augHeaders : List String)
    (bucketRows : List (List String)) : Table :=
  ⟨augHeaders, bucketRows⟩

/-- Modelled from the spec: split_file, the PartitionEngine of the
excel-merge-wasm Rust crate that is not under src/ (spec.md §4.5): locate
the key column by name, group rows by its value preserving row order, emit
partitions in first-seen key order, each keeping the full header set. -/
def modelSplitParts (headers : List String) (rows : List (List String))
    (name : String) : List (String × Table) :=
  let keyIdx : Nat :=
    match headers.indexOf? name with
    | some i => i
    | none => headers.length
  let keyOf := fun (r : List String) => r.getD keyIdx ""
  let seen := rows.foldl
    (fun acc r => if acc.contains (keyOf r) then acc else acc ++ [keyOf r]) []
  seen.map (fun k => (k, ⟨headers, rows.filter (fun r => keyOf r == k)⟩))

/-! Helper lemmas. -/

/-- Unfolding of the two-segment join. -/
theorem combineKeys_pair_raw (row : List String) (i j : Int) :
    combineKeys row [i, j] ⟨false, false⟩ = cellAt row i ++ "|" ++ cellAt row j :=
  rfl

/-- Position argument: if the left word is shorter, the combined word
forces a separator character inside the longer word. -/
theorem sepMemOfLt {l m : List Char} (hlt : l.length < m.length)
    (h : l ++ '|' :: m = m ++ '|' :: l) : '|' ∈ m := by
  have e1 : (l ++ '|' :: m)[l.length]? = some '|' := by
    rw [List.getElem?_append_right (Nat.le_refl l.length)]
    simp
  rw [h, List.getElem?_append_left hlt] at e1
  obtain ⟨hi, he⟩ := List.getElem?_eq_some_iff.mp e1
  exact he ▸ List.getElem_mem hi

/-- Words free of the separator commute around it only when equal. -/
theorem sepSwap {l m : List Char} (h0 : '|' ∉ l) (h1 : '|' ∉ m)
    (h : l ++ '|' :: m = m ++ '|' :: l) : l = m := by
  rcases Nat.lt_trichotomy l.length m.length with hlt | heq | hgt
  · exact absurd (sepMemOfLt hlt h) h1
  · exact (List.append_inj h heq).1
  · exact absurd (sepMemOfLt hgt h.symm) h0

/-! Claim theorems. -/

/-- C1: for every row, list of key column indices, and option pair, the
composite key builder returns the values at the given indices (defaulting
to the empty string for an out-of-range index) joined with "|", then trims
the whole joined string when trim is set, then lowercases the whole joined
string when case_insensitive is set; normalization acts on the whole joined
string, never per segment. -/
theorem combineKeys_eq_buildKeySpec (row : List String)
    (keyIndices : List Int) (options : CompareOptions) :
    combineKeys row keyIndices options = buildKeySpec row keyIndices options := by
  cases options with
  | mk t ci =>
    cases t <;> cases ci <;> rfl

/-- C5 counterexample: with no normalization, the claim fails when a cell
contains the join delimiter: the two cells "a|a" and "a" differ, yet the
keys built from index order [0, 1] and [1, 0] coincide (both are
"a|a|a"). -/
theorem combineKeys_swap_eq_counterexample :
    combineKeys ["a|a", "a"] [0, 1] ⟨false, false⟩ =
      combineKeys ["a|a", "a"] [1, 0] ⟨false, false⟩ ∧
    ("a|a" : String) ≠ "a" := by
  decide

/-- C5 (amended): under the identity normalization (trim and
case_insensitive both off), swapping the two key columns changes the key
whenever the two cell values differ and neither contains the "|"
delimiter.  (With a delimiter inside a value the keys can coincide, as the
counterexample shows; trim or casefold can likewise collapse the two
orders, since normalization acts on the whole joined string.) -/
theorem combineKeys_swap_ne (row : List String)
    (h01 : cellAt row 0 ≠ cellAt row 1)
    (hl : ('|' : Char) ∉ (cellAt row 0).data)
    (hr : ('|' : Char) ∉ (cellAt row 1).data) :
    combineKeys row [0, 1] ⟨false, false⟩ ≠
      combineKeys row [1, 0] ⟨false, false⟩ := by
  intro heq
  rw [combineKeys_pair_raw, combineKeys_pair_raw] at heq
  have hd : (cellAt row 0).data ++ '|' :: (cellAt row 1).data =
      (cellAt row 1).data ++ '|' :: (cellAt row 0).data := by
    have := congrArg String.data heq
    simpa [String.data_append] using this
  exact h01 (String.ext (sepSwap hl hr hd))

/-- C5 witness: the amended statement applied to the row ["a", "b"]. -/
theorem combineKeys_swap_ne_witness :
    combineKeys ["a", "b"] [0, 1] ⟨false, false⟩ ≠
      combineKeys ["a", "b"] [1, 0] ⟨false, false⟩ :=
  combineKeys_swap_ne ["a", "b"] (by decide) (by decide) (by decide)

/-- C8: the split path builds each row's helper composite key under the
fixed options trim = true, case_insensitive = false — it is literally the
compare-path augmentation instantiated at those constants, and takes no
other option input, so it cannot depend on the options of any
reconciliation call. -/
theorem splitAugment_uses_fixed_options (d : Table) (keys : List String) :
    splitAugment d keys = compareAugment d keys ⟨true, false⟩ :=
  rfl

/-- C4 counterexample: with merged headers [L__k, R__k], key list [k] and
row values ["", "x"], the claimed presence-based projection yields "" (the
L__k column is present), but the code's `||` chain falls through the empty
L value and yields "x". -/
theorem unifyRow_presence_counterexample :
    unifyRow ["k"] ["L__k", "R__k"] ["", "x"] = ["x"] ∧
    claimUnifyRow ["k"] ["L__k", "R__k"] ["", "x"] = [""] ∧
    (["x"] : List String) ≠ [""] := by
  decide

/-- C4 (amended): during row projection after key-column folding, for
every unified key header k the output value is the first non-empty value
among the L__k cell and the R__k cell (a missing column reads as empty),
else the empty string — presence of the column alone does not decide. -/
theorem unifyRow_eq_amendUnifyRow (compareKeys mergedHeaders row : List String) :
    unifyRow compareKeys mergedHeaders row =
      amendUnifyRow compareKeys mergedHeaders row := by
  unfold unifyRow amendUnifyRow
  refine List.map_congr_left ?_
  intro h _
  by_cases hk : (processedKeys compareKeys mergedHeaders).contains h
  · simp only [hk, if_true]
    cases hL : lastAssoc (rowPairs mergedHeaders row) ("L__" ++ h) with
    | none =>
      cases hR : lastAssoc (rowPairs mergedHeaders row) ("R__" ++ h) with
      | none => simp [jsOrStr]
      | some s => by_cases hs : s = "" <;> simp [jsOrStr, hs]
    | some s =>
      by_cases hs : s = ""
      · cases hR : lastAssoc (rowPairs mergedHeaders row) ("R__" ++ h) with
        | none => simp [jsOrStr, hs]
        | some t => by_cases ht : t = "" <;> simp [jsOrStr, hs, ht]
      · simp [jsOrStr, hs]
  · have hk' : h ∉ processedKeys compareKeys mergedHeaders := by
      simpa using hk
    simp [hk']

section
/- Rat.add, Rat.sub, Rat.mul and Rat.inv are @[irreducible] in Batteries,
which blocks kernel evaluation by decide on concrete rationals; they are
made semireducible locally for the concrete-input theorems below. -/
attribute [local semireducible] Rat.mul Rat.sub Rat.add Rat.inv

/-- C2: the user-requested output sort computes each compared value as
`parseFloat(cell) || 0`, so an unparsable cell is coerced to 0 before the
`isNaN` test and the locale-string fallback demanded by the claim (and
guarded by dead code in the source) can never run: on the unparsable pair
"banana" / "apple" the code comparator ties, while the claimed policy
returns a positive string comparison. -/
theorem userSort_unparsable_ties :
    userRowCompare ["fruit"] [⟨"fruit", .asc⟩] ["banana"] ["apple"] = 0 ∧
    claimSortValCompare .asc "banana" "apple" = 1 := by
  decide

/-- C6 counterexample: the key-column pre-sort and the user-requested
output sort do not share one comparison policy: on the unparsable pair
"apple" / "banana" (ascending, no normalization) the pre-sort falls back
to a string comparison and returns -1, while the output sort coerces both
cells to 0 and ties. -/
theorem preSort_userSort_differ :
    preKeyCompare ⟨false, false⟩ "apple" "banana" = -1 ∧
    userValCompare .asc "apple" "banana" = 0 ∧
    ((-1 : ℚ) : ℚ) ≠ 0 := by
  decide

end

/-- C6 (amended): the two sort code paths order a pair of cells identically
whenever both cells parse as numbers (ascending direction, no key
normalization active); when either fails to parse they differ — the
pre-sort uses a locale string comparison while the output sort treats the
cell as 0, as the counterexample shows. -/
theorem preSort_userSort_agree_on_numbers (a b : String) (qa qb : ℚ)
    (ha : jsParseFloat a = some qa) (hb : jsParseFloat b = some qb) :
    preKeyCompare ⟨false, false⟩ a b = userValCompare .asc a b := by
  simp [preKeyCompare, userValCompare, ha, hb]

section
attribute [local semireducible] Rat.mul Rat.sub Rat.add Rat.inv

/-- C6 witness: the amended agreement applied to the numeric cells "10"
and "5". -/
theorem preSort_userSort_agree_on_numbers_witness :
    preKeyCompare ⟨false, false⟩ "10" "5" = userValCompare .asc "10" "5" :=
  preSort_userSort_agree_on_numbers "10" "5" 10 5 (by decide) (by decide)

end

/-- Zipping a mapped list with its source pairs each element with its
image. -/
theorem map_zip_self {α β : Type} (g : α → β) (l : List α) :
    (l.map g).zip l = l.map (fun o => (g o, o)) := by
  induction l with
  | nil => rfl
  | cons a t ih => simp [ih]

/-- Closed form of the compareColumns fold: starting from headers hs and
rows that are the image of the merged rows under g, the fold appends the
labels of the valid specs to the headers and, row by row, the rendered
differences computed from the matching pre-unification row. -/
theorem diffFold_eq (mh : List String) (mr : List (List String))
    (specs : List DiffCol) :
    ∀ (hs : List String) (g : List String → List String),
    specs.foldl (diffStep mh mr) (hs, mr.map g) =
      (hs ++ (specs.filter validDiffCol).map (fun c => c.label),
       mr.map (fun o => g o ++ (specs.filter validDiffCol).map
         (fun c => ratToString (diffNum mh o c)))) := by
  induction specs with
  | nil => intro hs g; simp
  | cons c rest ih =>
    intro hs g
    rw [List.foldl_cons]
    by_cases hc : validDiffCol c = true
    · have hstep : diffStep mh mr (hs, mr.map g) c =
          (hs ++ [c.label],
           mr.map (fun o => g o ++ [ratToString (diffNum mh o c)])) := by
        unfold diffStep
        rw [if_pos hc]
        simp [map_zip_self]
      rw [hstep, ih (hs ++ [c.label])
        (fun o => g o ++ [ratToString (diffNum mh o c)])]
      simp [List.filter_cons, hc]
    · have hstep : diffStep mh mr (hs, mr.map g) c = (hs, mr.map g) := by
        unfold diffStep
        rw [if_neg hc]
      rw [hstep, ih hs g]
      simp [List.filter_cons, hc]

/-- Closed form of the merged-output pipeline. -/
theorem mergedOutput_eq (ck : List String) (specs : List DiffCol)
    (mh : List String) (mr : List (List String)) :
    mergedOutput ck specs mh mr =
      ⟨unifyHeaders ck mh ++ (specs.filter validDiffCol).map (fun c => c.label),
       mr.map (fun o => unifyRow ck mh o ++ (specs.filter validDiffCol).map
         (fun c => ratToString (diffNum mh o c)))⟩ := by
  unfold mergedOutput
  dsimp only
  rw [diffFold_eq]

/-- Membership in the unification worker output: every emitted header is a
verbatim input header or a key name not yet processed. -/
theorem mem_unifyHeadersGo {ck : List String} :
    ∀ {hs processed : List String} {x : String},
    x ∈ unifyHeadersGo ck processed hs → x ∈ hs ∨ (x ∈ ck ∧ x ∉ processed) := by
  intro hs
  induction hs with
  | nil =>
    intro processed x hx
    simp [unifyHeadersGo] at hx
  | cons h rest ih =>
    intro processed x hx
    cases hk : keyMatch ck h with
    | none =>
      simp only [unifyHeadersGo, hk] at hx
      rcases List.mem_cons.mp hx with rfl | hx2
      · exact Or.inl (List.mem_cons_self x rest)
      · rcases ih hx2 with hin | hck2
        · exact Or.inl (List.mem_cons_of_mem h hin)
        · exact Or.inr hck2
    | some k =>
      simp only [unifyHeadersGo, hk] at hx
      by_cases hp : processed.contains k = true
      · rw [if_pos hp] at hx
        rcases ih hx with hin | hck
        · exact Or.inl (List.mem_cons_of_mem h hin)
        · exact Or.inr hck
      · rw [if_neg hp] at hx
        rcases List.mem_cons.mp hx with rfl | hx
        · refine Or.inr ⟨List.mem_of_find?_eq_some hk, ?_⟩
          simpa using hp
        · rcases ih hx with hin | ⟨hinck, hnp⟩
          · exact Or.inl (List.mem_cons_of_mem h hin)
          · exact Or.inr ⟨hinck, fun hxp => hnp (List.mem_cons_of_mem k hxp)⟩

/-- The unified header list has no duplicates when the merged headers are
distinct and L__/R__-prefixed while the selected key names are not: a
folded key name can collide neither with a verbatim header (prefix
mismatch) nor with another folded name (the processedKeys guard), and the
verbatim headers stay distinct among themselves. -/
theorem nodup_unifyHeadersGo {ck : List String}
    (hck : ∀ k ∈ ck, prefixedHeader k = false) :
    ∀ {hs processed : List String}, hs.Nodup →
    (∀ h ∈ hs, prefixedHeader h = true) →
    (unifyHeadersGo ck processed hs).Nodup := by
  intro hs
  induction hs with
  | nil =>
    intro processed _ _
    simp [unifyHeadersGo]
  | cons h rest ih =>
    intro processed hnd hpr
    have hnr : h ∉ rest := (List.nodup_cons.mp hnd).1
    have hndr : rest.Nodup := (List.nodup_cons.mp hnd).2
    have hprr : ∀ x ∈ rest, prefixedHeader x = true :=
      fun x hx => hpr x (List.mem_cons_of_mem h hx)
    cases hk : keyMatch ck h with
    | none =>
      simp only [unifyHeadersGo, hk]
      refine List.nodup_cons.mpr ⟨?_, ih hndr hprr⟩
      intro hmem
      rcases mem_unifyHeadersGo hmem with hin | ⟨hinck, _⟩
      · exact hnr hin
      · have h1 := hck h hinck
        have h2 := hpr h (List.mem_cons_self h rest)
        rw [h1] at h2
        exact Bool.false_ne_true h2
    | some k =>
      simp only [unifyHeadersGo, hk]
      by_cases hp : processed.contains k = true
      · rw [if_pos hp]
        exact ih hndr hprr
      · rw [if_neg hp]
        refine List.nodup_cons.mpr ⟨?_, ih hndr hprr⟩
        intro hmem
        rcases mem_unifyHeadersGo hmem with hin | ⟨_, hnp⟩
        · have h1 := hck k (List.mem_of_find?_eq_some hk)
          have h2 := hprr k hin
          rw [h1] at h2
          exact Bool.false_ne_true h2
        · exact hnp (List.mem_cons_self k processed)

/-- Nodup of the unified header list, at the outermost call. -/
theorem nodup_unifyHeaders {ck mh : List String} (hnd : mh.Nodup)
    (hpr : ∀ h ∈ mh, prefixedHeader h = true)
    (hck : ∀ k ∈ ck, prefixedHeader k = false) :
    (unifyHeaders ck mh).Nodup :=
  nodup_unifyHeadersGo hck hnd hpr

/-- Each projected row has one cell per unified header. -/
theorem length_unifyRow (ck mh row : List String) :
    (unifyRow ck mh row).length = (unifyHeaders ck mh).length := by
  simp [unifyRow]

section
attribute [local semireducible] Rat.mul Rat.sub Rat.add Rat.inv

/-- Evaluation of the default literal fed to parseFloat by the diff
computation. -/
theorem jsParseFloat_zero_str : jsParseFloat "0" = some 0 := by
  decide

end

/-- C3: for each difference-column spec with left, right and label all
non-empty, the pipeline appends a column named label — after all unified
columns, in spec declaration order — whose value in every row renders
parseNumber(row[L__left]) - parseNumber(row[R__right]) computed on the
pre-unification row (diffNum), where parseNumber maps unparsable text and
absent cells to 0 and, being a total function, never raises. -/
theorem mergedOutput_diff_columns (ck : List String) (specs : List DiffCol)
    (mh : List String) (mr : List (List String)) (v : String)
    (hv : jsParseFloat v = none) :
    (mergedOutput ck specs mh mr).headers =
      unifyHeaders ck mh ++ (specs.filter validDiffCol).map (fun c => c.label) ∧
    (mergedOutput ck specs mh mr).rows =
      mr.map (fun o => unifyRow ck mh o ++ (specs.filter validDiffCol).map
        (fun c => ratToString (diffNum mh o c))) ∧
    parseNumber (some v) = 0 ∧ parseNumber none = 0 := by
  refine ⟨by rw [mergedOutput_eq], by rw [mergedOutput_eq], ?_, ?_⟩
  · by_cases hv0 : v = ""
    · simp [parseNumber, jsOrStr, hv0, jsParseFloat_zero_str]
    · simp [parseNumber, jsOrStr, hv0, hv]
  · simp [parseNumber, jsOrStr, jsParseFloat_zero_str]

section
attribute [local semireducible] Rat.mul Rat.sub Rat.add Rat.inv

/-- C3 witness: the closed form evaluated on the concrete reconciliation
scenario of the spec (one matched row, diff = 10 - 20), with the
unparsable cell "abc" for the parseNumber clauses. -/
theorem mergedOutput_diff_columns_witness :
    (mergedOutput ["id"] [⟨"amount", "amount", "diff"⟩]
      ["L__id", "L__amount", "R__id", "R__amount"]
      [["A", "10", "A", "20"]]).rows = [["A", "10", "20", "-10"]] ∧
    parseNumber (some "abc") = 0 := by
  refine ⟨?_, (mergedOutput_diff_columns [] [] [] [] "abc" (by decide)).2.2.1⟩
  rw [(mergedOutput_diff_columns ["id"] [⟨"amount", "amount", "diff"⟩]
    ["L__id", "L__amount", "R__id", "R__amount"]
    [["A", "10", "A", "20"]] "abc" (by decide)).2.1]
  decide

end

/-- C7 counterexample: a compare invocation with no diff columns (so the
label conditions hold vacuously) whose merged output has a duplicate
header: both inputs carry the columns ["L__b", "b"] and the selected key
is "L__b", so the spec-modelled engine emits the headers [L__b, L__L__b,
R__b, R__L__b] after key stripping, and the unification pass emits the
name "L__b" twice — once verbatim and once as the folded key. -/
theorem mergedOutput_dup_header_counterexample :
    ¬ (mergedOutput ["L__b"] []
      (modelCompareMergedHeaders ["L__b", "b"] ["L__b", "b"] ["L__b"])
      []).headers.Nodup := by
  decide

/-- C7 (amended): the merged output table has duplicate-free headers and
rows exactly as long as the header list, provided the merged headers
reaching unification are distinct and all L__/R__-prefixed, no selected
key name is itself L__/R__-prefixed, and the valid diff labels are
distinct and disjoint from the unified headers (as the claim already
required).  The row-length half holds for every input. -/
theorem mergedOutput_wellformed (ck : List String) (specs : List DiffCol)
    (mh : List String) (mr : List (List String))
    (hnd : mh.Nodup)
    (hpr : ∀ h ∈ mh, prefixedHeader h = true)
    (hck : ∀ k ∈ ck, prefixedHeader k = false)
    (hlab : ((specs.filter validDiffCol).map (fun c => c.label)).Nodup)
    (hdisj : ∀ l ∈ (specs.filter validDiffCol).map (fun c => c.label),
      l ∉ unifyHeaders ck mh) :
    (mergedOutput ck specs mh mr).headers.Nodup ∧
    ∀ r ∈ (mergedOutput ck specs mh mr).rows,
      r.length = (mergedOutput ck specs mh mr).headers.length := by
  constructor
  · rw [mergedOutput_eq]
    exact List.Nodup.append (nodup_unifyHeaders hnd hpr hck) hlab
      (fun a ha hb => hdisj a hb ha)
  · intro r hr
    rw [mergedOutput_eq] at hr
    simp only [List.mem_map] at hr
    obtain ⟨o, _, rfl⟩ := hr
    rw [mergedOutput_eq]
    simp [length_unifyRow]

section
attribute [local semireducible] Rat.mul Rat.sub Rat.add Rat.inv

/-- C7 witness: the amended invariants on the concrete scenario with one
matched row and one diff column. -/
theorem mergedOutput_wellformed_witness :
    (mergedOutput ["id"] [⟨"amount", "amount", "diff"⟩]
      ["L__id", "L__amount", "R__id", "R__amount"]
      [["A", "10", "A", "20"]]).headers.Nodup ∧
    ∀ r ∈ (mergedOutput ["id"] [⟨"amount", "amount", "diff"⟩]
      ["L__id", "L__amount", "R__id", "R__amount"]
      [["A", "10", "A", "20"]]).rows,
      r.length = (mergedOutput ["id"] [⟨"amount", "amount", "diff"⟩]
        ["L__id", "L__amount", "R__id", "R__amount"]
        [["A", "10", "A", "20"]]).headers.length :=
  mergedOutput_wellformed ["id"] [⟨"amount", "amount", "diff"⟩]
    ["L__id", "L__amount", "R__id", "R__amount"] [["A", "10", "A", "20"]]
    (by decide) (by decide) (by decide) (by decide) (by decide)

end

/-- Stability of insertion sort with respect to any class of mutually
≼-comparable elements: filtering the sorted list to such a class returns
the class members in their original input order. -/
theorem filter_insertionSort_of_class {α : Type} (r : α → α → Prop)
    [DecidableRel r] (p : α → Bool)
    (hcompat : ∀ a b, p a = true → p b = true → r a b) :
    ∀ l : List α, (l.insertionSort r).filter p = l.filter p := by
  intro l
  induction l with
  | nil => rfl
  | cons a l ih =>
    rw [List.insertionSort_cons_eq_take_drop, List.filter_append]
    have hsplit := List.takeWhile_append_dropWhile
      (fun b => decide (¬ r a b)) (l.insertionSort r)
    by_cases hpa : p a = true
    · have htk : ((l.insertionSort r).takeWhile
          fun b => decide (¬ r a b)).filter p = [] := by
        rw [List.filter_eq_nil_iff]
        intro x hx hpx
        have hnr : ¬ r a x := by simpa using List.mem_takeWhile_imp hx
        exact hnr (hcompat a x hpa hpx)
      have hdr : ((l.insertionSort r).dropWhile
          fun b => decide (¬ r a b)).filter p = l.filter p := by
        have h2 : (((l.insertionSort r).takeWhile fun b => decide (¬ r a b)) ++
            ((l.insertionSort r).dropWhile fun b => decide (¬ r a b))).filter p
            = l.filter p := by
          rw [hsplit]
          exact ih
        rw [List.filter_append, htk] at h2
        simpa using h2
      rw [htk]
      simp only [List.nil_append, List.filter_cons, hpa, if_true]
      rw [hdr]
    · have hpa' : p a = false := by simpa using hpa
      simp only [List.filter_cons, hpa', Bool.false_eq_true, if_false]
      rw [← List.filter_append, hsplit]
      exact ih

/-- A cell comparison ties exactly when the two numeric coercions agree. -/
theorem userValCompare_eq_zero_iff (d : Direction) (a b : String) :
    userValCompare d a b = 0 ↔
      (jsParseFloat a).getD 0 = (jsParseFloat b).getD 0 := by
  cases d with
  | asc => simp [userValCompare, sub_eq_zero]
  | desc =>
    simp only [userValCompare, sub_eq_zero]
    exact eq_comm

/-- A row comparison ties exactly when the numeric coercions agree on every
resolvable sort column. -/
theorem userRowCompare_eq_zero_iff (headers : List String)
    (cols : List SortCol) (a b : List String) :
    userRowCompare headers cols a b = 0 ↔
      ∀ c ∈ cols, ∀ i, headers.indexOf? c.column = some i →
        cellNumAt a i = cellNumAt b i := by
  induction cols with
  | nil => simp [userRowCompare]
  | cons c rest ih =>
    cases hidx : headers.indexOf? c.column with
    | none =>
      simp only [userRowCompare, hidx]
      rw [ih]
      constructor
      · intro hrest c2 hc2 i hi
        rcases List.mem_cons.mp hc2 with rfl | hc2r
        · rw [hidx] at hi
          exact Option.noConfusion hi
        · exact hrest c2 hc2r i hi
      · exact fun hall c2 hc2 i hi => hall c2 (List.mem_cons_of_mem c hc2) i hi
    | some j =>
      simp only [userRowCompare, hidx]
      by_cases hr : userValCompare c.direction (a.getD j "") (b.getD j "") = 0
      · rw [if_pos hr, ih]
        have hj : cellNumAt a j = cellNumAt b j := by
          have := (userValCompare_eq_zero_iff _ _ _).mp hr
          simpa [cellNumAt] using this
        constructor
        · intro hrest c2 hc2 i hi
          rcases List.mem_cons.mp hc2 with rfl | hc2r
          · rw [hidx] at hi
            injection hi with hj2
            exact hj2 ▸ hj
          · exact hrest c2 hc2r i hi
        · exact fun hall c2 hc2 i hi => hall c2 (List.mem_cons_of_mem c hc2) i hi
      · rw [if_neg hr]
        constructor
        · exact fun h0 => absurd h0 hr
        · intro hall
          exfalso
          apply hr
          rw [userValCompare_eq_zero_iff]
          have := hall c (List.mem_cons_self c rest) j hidx
          simpa [cellNumAt] using this

/-- C9: the user-requested output sort is stable: restricting the sorted
rows to the class of rows that compare equal (across all active sort
columns) to any fixed row returns them in their original relative order.
The embedding jsSortRows is the canonical stable sort under the code's
comparator, matching the stable Array.prototype.sort mandated by
ECMAScript. -/
theorem userSort_stable (headers : List String) (cols : List SortCol)
    (rows : List (List String)) (r0 : List String) :
    (jsSortRows headers cols rows).filter
        (fun x => decide (userRowCompare headers cols x r0 = 0)) =
      rows.filter (fun x => decide (userRowCompare headers cols x r0 = 0)) := by
  unfold jsSortRows
  apply filter_insertionSort_of_class
  intro a b ha hb
  have ha' : userRowCompare headers cols a r0 = 0 := of_decide_eq_true ha
  have hb' : userRowCompare headers cols b r0 = 0 := of_decide_eq_true hb
  have hab : userRowCompare headers cols a b = 0 := by
    rw [userRowCompare_eq_zero_iff] at ha' hb' ⊢
    intro c hc i hi
    exact (ha' c hc i hi).trans (hb' c hc i hi).symm
  exact le_of_eq hab

/-- First-occurrence index of a fresh name appended at the end. -/
theorem indexOf?_append_self {hs : List String} {name : String}
    (h : name ∉ hs) : (hs ++ [name]).indexOf? name = some hs.length := by
  induction hs with
  | nil => simp [List.indexOf?_cons]
  | cons x xs ih =>
    have hx : ¬ (x == name) = true := by
      simp only [beq_iff_eq]
      exact fun e => h (e ▸ List.mem_cons_self x xs)
    have hxs : name ∉ xs := fun hm => h (List.mem_cons_of_mem x hm)
    rw [List.cons_append, List.indexOf?_cons, if_neg hx, ih hxs]
    rfl

/-- First-occurrence index of a name that already occurs in the prefix. -/
theorem indexOf?_append_mem {hs : List String} {name : String}
    (h : name ∈ hs) (l : List String) :
    (hs ++ l).indexOf? name = some (hs.indexOf name) := by
  induction hs with
  | nil => simp at h
  | cons x xs ih =>
    by_cases hx : (x == name) = true
    · rw [List.cons_append, List.indexOf?_cons, if_pos hx, List.indexOf_cons]
      simp [hx]
    · have hm : name ∈ xs := by
        rcases List.mem_cons.mp h with rfl | hm2
        · simp at hx
        · exact hm2
      rw [List.cons_append, List.indexOf?_cons, if_neg hx, ih hm,
        List.indexOf_cons]
      simp [hx]

/-- Erasing the appended last element recovers the prefix. -/
theorem eraseIdx_append_len (hs : List String) (name : String) :
    (hs ++ [name]).eraseIdx hs.length = hs := by
  induction hs with
  | nil => rfl
  | cons x xs ih => simp [List.eraseIdx_cons_succ, ih]

/-- Every part table of the modelled split engine keeps the full input
header set. -/
theorem modelSplitParts_headers (headers : List String)
    (rows : List (List String)) (name : String) :
    ∀ p ∈ modelSplitParts headers rows name, p.2.headers = headers := by
  intro p hp
  unfold modelSplitParts at hp
  simp only [List.mem_map] at hp
  obtain ⟨k, _, rfl⟩ := hp
  rfl

/-- Stripping a fresh helper name from a table with headers hs ++ [name]
removes exactly the last (appended) column. -/
theorem stripCombinedKey_fresh {hs : List String} {name : String}
    (h : name ∉ hs) (t : Table) (ht : t.headers = hs ++ [name]) :
    stripCombinedKey (hs ++ [name]) name t =
      ⟨hs, t.rows.map (fun r => r.eraseIdx hs.length)⟩ := by
  unfold stripCombinedKey
  rw [indexOf?_append_self h]
  simp [ht, eraseIdx_append_len]

/-- Stripping a helper name that collides with an original column removes
the original (earlier) column and keeps the appended helper column. -/
theorem stripCombinedKey_collision {hs : List String} {name : String}
    (h : name ∈ hs) (t : Table) (ht : t.headers = hs ++ [name]) :
    stripCombinedKey (hs ++ [name]) name t =
      ⟨hs.eraseIdx (hs.indexOf name) ++ [name],
       t.rows.map (fun r => r.eraseIdx (hs.indexOf name))⟩ := by
  unfold stripCombinedKey
  rw [indexOf?_append_mem h]
  simp [ht, List.eraseIdx_append_of_lt_length (List.indexOf_lt_length.2 h)]

/-- Stripping the joined key name from the matched bucket removes the
column at index 0: the bucket's first header is the key name itself, so
the first occurrence is always the engine's key column, whatever the
renamed columns behind it look like. -/
theorem removeCombinedKey_cons (name : String) (rest : List String)
    (mrows : List (List String)) :
    removeCombinedKey name ⟨name :: rest, mrows⟩ =
      ⟨rest, mrows.map (fun r => r.eraseIdx 0)⟩ := by
  unfold removeCombinedKey stripCombinedKey
  have h0 : (name :: rest).indexOf? name = some 0 := by
    simp [List.indexOf?_cons]
  rw [h0]
  rfl

/-- Matched-bucket headers for a fresh joined name: the engine key column
is the appended helper, so the non-key columns are exactly the original
columns of each side, prefixed. -/
theorem modelMatchedHeaders_fresh {leftH rightH : List String}
    {name : String} (hl : name ∉ leftH) (hr : name ∉ rightH) :
    modelMatchedHeaders name (leftH ++ [name]) (rightH ++ [name]) =
      name :: (leftH.map (fun c => "L__" ++ c) ++
        rightH.map (fun c => "R__" ++ c)) := by
  unfold modelMatchedHeaders
  rw [indexOf?_append_self hl, indexOf?_append_self hr]
  simp [eraseIdx_append_len]

/-- Matched-bucket headers for a colliding joined name: the engine keys on
the original column (first occurrence), so the appended helper survives
among the non-key columns, prefixed on each side. -/
theorem modelMatchedHeaders_collision {leftH rightH : List String}
    {name : String} (hl : name ∈ leftH) (hr : name ∈ rightH) :
    modelMatchedHeaders name (leftH ++ [name]) (rightH ++ [name]) =
      name :: ((leftH.eraseIdx (leftH.indexOf name) ++ [name]).map
          (fun c => "L__" ++ c) ++
        (rightH.eraseIdx (rightH.indexOf name) ++ [name]).map
          (fun c => "R__" ++ c)) := by
  unfold modelMatchedHeaders
  rw [indexOf?_append_mem hl, indexOf?_append_mem hr]
  simp [List.eraseIdx_append_of_lt_length (List.indexOf_lt_length.2 hl),
    List.eraseIdx_append_of_lt_length (List.indexOf_lt_length.2 hr)]

/-- C10: helper-key stripping removes exactly the column at the first
index whose header equals the key column names joined with "|", on both
the split and the compare path.  Fresh joined name (no original header
equals it): every split part and every compare side bucket loses exactly
the appended helper column (the last, at index |hs|), and the matched
bucket loses exactly its leading key column — which carries the appended
helper — leaving the prefixed original columns; so every returned
bucket/part equals the engine output with only the appended helper column
removed.  Colliding joined name (an original column already bears it): the
original column is removed and the appended helper column remains in the
result — last and unrenamed in split parts and side buckets, prefixed as
L__name / R__name in the matched bucket. -/
theorem helperKeyStrip_first_index (hs leftH rightH : List String)
    (keys : List String) (rows brows mrows : List (List String)) :
    (joinBar keys ∉ hs →
      (modelSplitParts (splitAugment ⟨hs, rows⟩ keys).headers
          (splitAugment ⟨hs, rows⟩ keys).rows (joinBar keys)).map
        (fun p => (p.1, stripCombinedKey (splitAugment ⟨hs, rows⟩ keys).headers
          (joinBar keys) p.2)) =
      (modelSplitParts (splitAugment ⟨hs, rows⟩ keys).headers
          (splitAugment ⟨hs, rows⟩ keys).rows (joinBar keys)).map
        (fun p => (p.1, Table.mk hs
          (p.2.rows.map (fun r => r.eraseIdx hs.length))))) ∧
    (joinBar keys ∈ hs →
      (modelSplitParts (splitAugment ⟨hs, rows⟩ keys).headers
          (splitAugment ⟨hs, rows⟩ keys).rows (joinBar keys)).map
        (fun p => (p.1, stripCombinedKey (splitAugment ⟨hs, rows⟩ keys).headers
          (joinBar keys) p.2)) =
      (modelSplitParts (splitAugment ⟨hs, rows⟩ keys).headers
          (splitAugment ⟨hs, rows⟩ keys).rows (joinBar keys)).map
        (fun p => (p.1, Table.mk
          (hs.eraseIdx (hs.indexOf (joinBar keys)) ++ [joinBar keys])
          (p.2.rows.map (fun r => r.eraseIdx (hs.indexOf (joinBar keys))))))) ∧
    (joinBar keys ∉ hs →
      removeCombinedKey (joinBar keys)
          (modelSideBucket (hs ++ [joinBar keys]) brows) =
        ⟨hs, brows.map (fun r => r.eraseIdx hs.length)⟩) ∧
    (joinBar keys ∈ hs →
      removeCombinedKey (joinBar keys)
          (modelSideBucket (hs ++ [joinBar keys]) brows) =
        ⟨hs.eraseIdx (hs.indexOf (joinBar keys)) ++ [joinBar keys],
         brows.map (fun r => r.eraseIdx (hs.indexOf (joinBar keys)))⟩) ∧
    (joinBar keys ∉ leftH → joinBar keys ∉ rightH →
      removeCombinedKey (joinBar keys)
          ⟨modelMatchedHeaders (joinBar keys) (leftH ++ [joinBar keys])
            (rightH ++ [joinBar keys]), mrows⟩ =
        ⟨leftH.map (fun c => "L__" ++ c) ++ rightH.map (fun c => "R__" ++ c),
         mrows.map (fun r => r.eraseIdx 0)⟩) ∧
    (joinBar keys ∈ leftH → joinBar keys ∈ rightH →
      removeCombinedKey (joinBar keys)
          ⟨modelMatchedHeaders (joinBar keys) (leftH ++ [joinBar keys])
            (rightH ++ [joinBar keys]), mrows⟩ =
        ⟨(leftH.eraseIdx (leftH.indexOf (joinBar keys)) ++ [joinBar keys]).map
            (fun c => "L__" ++ c) ++
          (rightH.eraseIdx (rightH.indexOf (joinBar keys)) ++ [joinBar keys]).map
            (fun c => "R__" ++ c),
         mrows.map (fun r => r.eraseIdx 0)⟩) := by
  refine ⟨?_, ?_, ?_, ?_, ?_, ?_⟩
  · intro h
    apply List.map_congr_left
    intro p hp
    have ht : p.2.headers = hs ++ [joinBar keys] :=
      modelSplitParts_headers _ _ _ p hp
    exact congrArg (Prod.mk p.1) (stripCombinedKey_fresh h p.2 ht)
  · intro h
    apply List.map_congr_left
    intro p hp
    have ht : p.2.headers = hs ++ [joinBar keys] :=
      modelSplitParts_headers _ _ _ p hp
    exact congrArg (Prod.mk p.1) (stripCombinedKey_collision h p.2 ht)
  · intro h
    exact stripCombinedKey_fresh h (modelSideBucket (hs ++ [joinBar keys]) brows) rfl
  · intro h
    exact stripCombinedKey_collision h (modelSideBucket (hs ++ [joinBar keys]) brows) rfl
  · intro hl hr
    rw [modelMatchedHeaders_fresh hl hr]
    exact removeCombinedKey_cons (joinBar keys) _ mrows
  · intro hl hr
    rw [modelMatchedHeaders_collision hl hr]
    exact removeCombinedKey_cons (joinBar keys) _ mrows

/-- C10 witness: all six branches exercised — the split part, compare side
bucket and matched bucket with the fresh helper "x|y" over headers
["x", "y"] (matched sides headed ["a"]), and the same three with the
colliding helper "x" over header ["x"] (the single-key case, where the
helper name always equals the key column's own name). -/
theorem helperKeyStrip_first_index_witness :
    ((modelSplitParts (splitAugment ⟨["x", "y"], [["1", "2"]]⟩ ["x", "y"]).headers
        (splitAugment ⟨["x", "y"], [["1", "2"]]⟩ ["x", "y"]).rows
        (joinBar ["x", "y"])).map
      (fun p => (p.1,
        stripCombinedKey (splitAugment ⟨["x", "y"], [["1", "2"]]⟩ ["x", "y"]).headers
          (joinBar ["x", "y"]) p.2)) =
    (modelSplitParts (splitAugment ⟨["x", "y"], [["1", "2"]]⟩ ["x", "y"]).headers
        (splitAugment ⟨["x", "y"], [["1", "2"]]⟩ ["x", "y"]).rows
        (joinBar ["x", "y"])).map
      (fun p => (p.1, Table.mk ["x", "y"]
        (p.2.rows.map (fun r => r.eraseIdx (["x", "y"] : List String).length))))) ∧
    ((modelSplitParts (splitAugment ⟨["x"], [["1"]]⟩ ["x"]).headers
        (splitAugment ⟨["x"], [["1"]]⟩ ["x"]).rows (joinBar ["x"])).map
      (fun p => (p.1,
        stripCombinedKey (splitAugment ⟨["x"], [["1"]]⟩ ["x"]).headers
          (joinBar ["x"]) p.2)) =
    (modelSplitParts (splitAugment ⟨["x"], [["1"]]⟩ ["x"]).headers
        (splitAugment ⟨["x"], [["1"]]⟩ ["x"]).rows (joinBar ["x"])).map
      (fun p => (p.1, Table.mk
        ((["x"] : List String).eraseIdx ((["x"] : List String).indexOf (joinBar ["x"]))
          ++ [joinBar ["x"]])
        (p.2.rows.map (fun r =>
          r.eraseIdx ((["x"] : List String).indexOf (joinBar ["x"]))))))) ∧
    (removeCombinedKey (joinBar ["x", "y"])
        (modelSideBucket (["x", "y"] ++ [joinBar ["x", "y"]]) [["1", "2", "1|2"]]) =
      ⟨["x", "y"], [["1", "2", "1|2"]].map
        (fun r => r.eraseIdx (["x", "y"] : List String).length)⟩) ∧
    (removeCombinedKey (joinBar ["x"])
        (modelSideBucket (["x"] ++ [joinBar ["x"]]) [["1", "1"]]) =
      ⟨(["x"] : List String).eraseIdx
          ((["x"] : List String).indexOf (joinBar ["x"])) ++ [joinBar ["x"]],
       [["1", "1"]].map (fun r =>
         r.eraseIdx ((["x"] : List String).indexOf (joinBar ["x"])))⟩) ∧
    (removeCombinedKey (joinBar ["x", "y"])
        ⟨modelMatchedHeaders (joinBar ["x", "y"]) (["a"] ++ [joinBar ["x", "y"]])
          (["a"] ++ [joinBar ["x", "y"]]), [["v", "1", "2"]]⟩ =
      ⟨(["a"] : List String).map (fun c => "L__" ++ c) ++
          (["a"] : List String).map (fun c => "R__" ++ c),
       [["v", "1", "2"]].map (fun r => r.eraseIdx 0)⟩) ∧
    (removeCombinedKey (joinBar ["x"])
        ⟨modelMatchedHeaders (joinBar ["x"]) (["x"] ++ [joinBar ["x"]])
          (["x"] ++ [joinBar ["x"]]), [["v", "1", "1"]]⟩ =
      ⟨((["x"] : List String).eraseIdx
            ((["x"] : List String).indexOf (joinBar ["x"])) ++ [joinBar ["x"]]).map
          (fun c => "L__" ++ c) ++
        ((["x"] : List String).eraseIdx
            ((["x"] : List String).indexOf (joinBar ["x"])) ++ [joinBar ["x"]]).map
          (fun c => "R__" ++ c),
       [["v", "1", "1"]].map (fun r => r.eraseIdx 0)⟩) := by
  refine ⟨?_, ?_, ?_, ?_, ?_, ?_⟩
  · exact (helperKeyStrip_first_index ["x", "y"] ["a"] ["a"] ["x", "y"]
      [["1", "2"]] [["1", "2", "1|2"]] [["v", "1", "2"]]).1 (by decide)
  · exact (helperKeyStrip_first_index ["x"] ["x"] ["x"] ["x"]
      [["1"]] [["1", "1"]] [["v", "1", "1"]]).2.1 (by decide)
  · exact (helperKeyStrip_first_index ["x", "y"] ["a"] ["a"] ["x", "y"]
      [["1", "2"]] [["1", "2", "1|2"]] [["v", "1", "2"]]).2.2.1 (by decide)
  · exact (helperKeyStrip_first_index ["x"] ["x"] ["x"] ["x"]
      [["1"]] [["1", "1"]] [["v", "1", "1"]]).2.2.2.1 (by decide)
  · exact (helperKeyStrip_first_index ["x", "y"] ["a"] ["a"] ["x", "y"]
      [["1", "2"]] [["1", "2", "1|2"]] [["v", "1", "2"]]).2.2.2.2.1
      (by decide) (by decide)
  · exact (helperKeyStrip_first_index ["x"] ["x"] ["x"] ["x"]
      [["1"]] [["1", "1"]] [["v", "1", "1"]]).2.2.2.2.2
      (by decide) (by decide)

end MergeExcel
